import Mathlib

/-!
# Verification of the imgdb near-duplicate image index

Shallow embedding of the Go sources `imgdb.go` (package `imgdb`) and
`histogram.go` (package `imgutil`).  Floating-point values (`float32` /
`float64`) are modelled as exact rationals `ℚ`; machine pixel/channel
values are natural numbers.  The gorm-backed record store (the `Cluster`
and `ImageFile` tables) is modelled as explicit state, and the
mutex-guarded critical section of `AddImg` is modelled by running whole
calls sequentially: the single lock serializes the critical sections, and
all code outside the critical section touches only call-local data.
-/

namespace Imgdb

/-! ## imgutil: RGBHistogram and ChiDist (histogram.go) -/

/-- `epsilon = 1e-10` from `imgutil` (guard against division by zero). -/
def epsilon : ℚ := 1 / 10 ^ 10

/-- `limit float64 = 65535`: the native channel range of `Color.RGBA()`. -/
def limit : ℕ := 65535

/-- `uint32(math.Ceil(limit / float64(bins)))`: the per-channel divisor.
For natural `bins > 0` the ceiling of the exact division. -/
def chanDiv (bins : ℕ) : ℕ := (limit + bins - 1) / bins

/-- A decoded image: bounds plus pixel accessor.  `pix x y` returns the
`(r, g, b)` channel triple of `Color.RGBA()` (each in `0..65535`). -/
structure Img where
  w : ℕ
  h : ℕ
  pix : ℕ → ℕ → ℕ × ℕ × ℕ

/-- The `RGBHistogram` struct of `imgutil`. -/
structure RGBHistogram where
  rBin : ℕ
  gBin : ℕ
  bBin : ℕ
  feature : List ℚ

/-- `imgutil.New(r, g, b)`: zeroed feature slice of length `r*g*b`. -/
def RGBHistogram.new (r g b : ℕ) : RGBHistogram :=
  ⟨r, g, b, List.replicate (r * g * b) 0⟩

/-- The joint bin index `r + g*rBin + b*rBin*gBin` computed inside
`Describe`, each channel integer-divided by `ceil(65535/bins)`. -/
def RGBHistogram.binIdx (hi : RGBHistogram) (p : ℕ × ℕ × ℕ) : ℕ :=
  p.1 / chanDiv hi.rBin + p.2.1 / chanDiv hi.gBin * hi.rBin
    + p.2.2 / chanDiv hi.bBin * hi.rBin * hi.gBin

/-- The pixels visited by the `for x ... for y ...` loops of `Describe`
(x outer, y inner). -/
def pixList (img : Img) : List (ℕ × ℕ × ℕ) :=
  (List.range img.w).flatMap fun x => (List.range img.h).map fun y => img.pix x y

/-- One `this.Feature[idx]++` step of the accumulation loop of `Describe`.
(In Go an out-of-range index would panic; whenever channels are in range
`0..65535` the index is within the 512-slot slice, and `List.set` is then
exactly the in-place increment.) -/
def bumpBin (hi : RGBHistogram) (feat : List ℚ) (p : ℕ × ℕ × ℕ) : List ℚ :=
  feat.set (hi.binIdx p) (feat.getD (hi.binIdx p) 0 + 1)

/-- `RGBHistogram.Describe`: accumulate a count per joint bin over every
pixel, then normalize by the total pixel count `nPix = dX * dY`. -/
def RGBHistogram.Describe (hi : RGBHistogram) (img : Img) : RGBHistogram :=
  let nPix : ℕ := img.w * img.h
  let counts := (pixList img).foldl (bumpBin hi) hi.feature
  ⟨hi.rBin, hi.gBin, hi.bBin, counts.map fun v => v / (nPix : ℚ)⟩

/-- `imgutil.GenerateFeature`: format check, then an 8×8×8 histogram.
`none` models the Go `nil` slice for unsupported formats. -/
def GenerateFeature (img : Img) (format : String) : Option (List ℚ) :=
  if format = "png" ∨ format = "jpeg" then
    some ((RGBHistogram.new 8 8 8).Describe img).feature
  else
    none

/-- Result of `ChiDist`: a finite `float64` value or `math.Inf(1)`. -/
inductive ChiResult where
  | inf : ChiResult
  | val : ℚ → ChiResult
deriving DecidableEq

/-- One loop iteration of `ChiDist`: `num*num/den` with
`num = f1 - f2` and `den = f1 + f2 + epsilon`. -/
def chiTerm (a b : ℚ) : ℚ := (a - b) * (a - b) / (a + b + epsilon)

/-- `imgutil.ChiDist`: `math.Inf(1)` on length mismatch, otherwise the
loop `accum += num*num/den` over paired entries, finally `accum / 2`. -/
def ChiDist (feat1 feat2 : List ℚ) : ChiResult :=
  if feat1.length ≠ feat2.length then
    ChiResult.inf
  else
    ChiResult.val (((feat1.zip feat2).foldl (fun accum p => accum + chiTerm p.1 p.2) 0) / 2)

/-- The Go comparison `sim < chiThresh` on the `float64` result of
`ChiDist`; `Inf < threshold` is false. -/
def chiLt (r : ChiResult) (t : ℚ) : Bool :=
  match r with
  | ChiResult.inf => false
  | ChiResult.val q => decide (q < t)

/-! ## imgdb: constants, signature and record store (imgdb.go) -/

/-- `chiThresh = 5e-3` from `imgdb.go`. -/
def chiThresh : ℚ := 5 / 1000

/-- `minLimit = 500`, the default minimum width/height. -/
def minLimit : ℕ := 500

/-- The Go conversion `uint(f)` on a `float32`: truncation toward zero.
Feature values are non-negative, where this is the floor; for negative
input Go leaves the result unspecified and this model returns 0. -/
def goUint (q : ℚ) : ℕ := q.num.toNat / q.den

/-- The conditional `if uint(f) > 0 { accum |= 1 << bi }` of the
`bitApproximation` loop. -/
def orBit (q : ℚ) (k : ℕ) (acc : ℕ) : ℕ :=
  if goUint q > 0 then acc ||| (1 <<< k) else acc

/-- One iteration of the `bitApproximation` loop: state is the output
byte slice `b` together with `accum`; `p` is `(i, f)` from `range arr`. -/
def bitStep (st : List ℕ × ℕ) (p : ℕ × ℚ) : List ℕ × ℕ :=
  let bi := p.1 % 8
  let accum := orBit p.2 bi st.2
  if bi = 7 then (st.1.set (p.1 / 8) accum, 0) else (st.1, accum)

/-- The byte assembled by one complete group of 8 loop iterations
starting from `accum = 0`. -/
def byteVal (a0 a1 a2 a3 a4 a5 a6 a7 : ℚ) : ℕ :=
  orBit a7 7 (orBit a6 6 (orBit a5 5 (orBit a4 4
    (orBit a3 3 (orBit a2 2 (orBit a1 1 (orBit a0 0 0)))))))

/-- The byte the loop writes for complete group `i` of the array. -/
def chunkByteAt (l : List ℚ) (i : ℕ) : ℕ :=
  byteVal (l.getD (8 * i) 0) (l.getD (8 * i + 1) 0) (l.getD (8 * i + 2) 0)
    (l.getD (8 * i + 3) 0) (l.getD (8 * i + 4) 0) (l.getD (8 * i + 5) 0)
    (l.getD (8 * i + 6) 0) (l.getD (8 * i + 7) 0)

/-- Closed form of the `bitApproximation` loop: write one byte per
complete group of 8 values; an incomplete trailing group writes
nothing. -/
def writeBytes (b : List ℕ) (t : ℕ) : List ℚ → List ℕ
  | a0 :: a1 :: a2 :: a3 :: a4 :: a5 :: a6 :: a7 :: l =>
    writeBytes (b.set t (byteVal a0 a1 a2 a3 a4 a5 a6 a7)) (t + 1) l
  | _ => b

/-- `bitApproximation`: rounds each value to one bit (`uint(f) > 0`),
packs 8 bits per output byte (low bit first), writing a byte only when a
group of 8 completes; the output slice has length `n/8 + n%8`. -/
def bitApproximation (arr : List ℚ) : List ℕ :=
  let n := arr.length
  let outN := n / 8 + n % 8
  (arr.enum.foldl bitStep (List.replicate outN 0, 0)).1

/-- A row of the `ImageFile` table.  The `Index` column stores the exact
little-endian serialization of the `float32` feature slice
(`stringify` / `featureParse` are mutually inverse and lossless), so the
model stores the feature vector itself. -/
structure ImageFile where
  name : String
  format : String
  index : List ℚ
deriving DecidableEq

/-- A row of the `Cluster` table together with its associated
`ImageFiles` (the gorm association).  `name` is the signature, a Go
string of raw bytes. -/
structure Cluster where
  name : List ℕ
  files : List ImageFile
deriving DecidableEq

/-- The `ImgDB` wrapper: size limits plus the record store reachable
through the gorm handle.  The mutex is modelled by serializing calls. -/
structure ImgDB where
  minW : ℕ
  minH : ℕ
  clusters : List Cluster
deriving DecidableEq

/-- The `db.Find(&dirs, "name = ?", cluster)` lookup of `getCluster`. -/
def findCluster (cs : List Cluster) (sig : List ℕ) : Option Cluster :=
  cs.find? fun c => c.name = sig

/-- `getCluster`: find the cluster named by the signature, creating an
empty one (`db.Create`) if absent.  Returns the cluster together with
the updated cluster table. -/
def getCluster (cs : List Cluster) (sig : List ℕ) : Cluster × List Cluster :=
  match findCluster cs sig with
  | some c => (c, cs)
  | none => (⟨sig, []⟩, cs ++ [⟨sig, []⟩])

/-- `fileExists`: `db.Find(&files, "name = ?", name)` over the whole
`ImageFile` table (all clusters). -/
def fileExists (cs : List Cluster) (n : String) : Bool :=
  cs.any fun c => c.files.any fun f => f.name = n

/-- `this.Model(cluster).Association("ImageFiles").Append(*imgModel)`:
append the record to the cluster carrying the given signature. -/
def appendFile (cs : List Cluster) (sig : List ℕ) (f : ImageFile) : List Cluster :=
  cs.map fun c => if c.name = sig then ⟨c.name, c.files ++ [f]⟩ else c

/-- The lowercase hex alphabet of `encoding/hex`. -/
def hexDigit (n : ℕ) : Char := "0123456789abcdef".toList.getD n '0'

/-- `hex.Encode` of a byte slice: two lowercase hex characters per byte. -/
def hexEncode (bs : List ℕ) : String :=
  String.mk (bs.flatMap fun b => [hexDigit (b / 16), hexDigit (b % 16)])

/-- The errors `AddImg` can produce before the blob write:
decode failure, the size filter, feature-extraction failure, and
`DupFileError{existing, dupfile}`. -/
inductive AddErr where
  | decodeFail : AddErr
  | tooSmall : ℕ → ℕ → AddErr
  | featureFail : String → AddErr
  | dupFile : String → String → AddErr
deriving DecidableEq

/-- Outcome of `image.Decode` on the raw bytes: failure, or a decoded
image with its detected format tag. -/
inductive DecodeResult where
  | fail : DecodeResult
  | ok : Img → String → DecodeResult

/-- `ImgDB.AddImg`.  `input` is the outcome of `image.Decode(data)` and
`rand` the bytes delivered by the crypto random reader (Go reads exactly
8).  The final blob write (`os.Create` / `file.Write`) is external I/O
outside the record store and outside this model; the returned state is
the store as left by the critical section. -/
def AddImg (db : ImgDB) (name : String) (input : DecodeResult) (rand : List ℕ) :
    Except AddErr ImageFile × ImgDB :=
  match input with
  | DecodeResult.fail => (Except.error AddErr.decodeFail, db)
  | DecodeResult.ok img format =>
    if img.w < db.minW ∨ img.h < db.minH then
      (Except.error (AddErr.tooSmall img.w img.h), db)
    else
      match GenerateFeature img format with
      | none => (Except.error (AddErr.featureFail name), db)
      | some features =>
        let filename := name ++ "." ++ format
        let sig := bitApproximation features
        let pr := getCluster db.clusters sig
        match pr.1.files.find? (fun f => chiLt (ChiDist features f.index) chiThresh) with
        | some f =>
          (Except.error (AddErr.dupFile (f.name ++ "." ++ f.format) filename),
            ⟨db.minW, db.minH, pr.2⟩)
        | none =>
          let finalName := if fileExists pr.2 name then name ++ hexEncode (rand.take 8) else name
          let imgModel : ImageFile := ⟨finalName, format, features⟩
          (Except.ok imgModel, ⟨db.minW, db.minH, appendFile pr.2 sig imgModel⟩)

/-- A fresh `ImgDB` as produced by `New`: default limits `minLimit`,
freshly migrated (empty) tables. -/
def newImgDB : ImgDB := ⟨minLimit, minLimit, []⟩

/-- Serialized execution of a batch of `AddImg` calls: the single mutex
serializes the critical sections, and all state the calls share lives in
the record store, so any concurrent schedule of N calls is observationally
one of the N! orders of this runner. -/
def runSeq (db : ImgDB) : List (String × DecodeResult × List ℕ) →
    List (Except AddErr ImageFile) × ImgDB
  | [] => ([], db)
  | c :: cs =>
    let r := AddImg db c.1 c.2.1 c.2.2
    let rest := runSeq r.2 cs
    (r.1 :: rest.1, rest.2)

/-- Whether an `AddImg` outcome committed a record. -/
def isOkResult (r : Except AddErr ImageFile) : Bool :=
  match r with
  | Except.ok _ => true
  | Except.error _ => false

/-! ## Concrete test data used to exercise the model -/

/-- A 1×1 solid image: every channel 0, histogram mass in joint bin 0. -/
def imgA : Img := ⟨1, 1, fun _ _ => (0, 0, 0)⟩

/-- A 128×1 image: one pixel in red bin 1 (`r = 8192`), the other 127
in joint bin 0.  Its histogram is `[127/128, 1/128, 0, ...]`. -/
def imgB : Img := ⟨128, 1, fun x _ => if x = 0 then (8192, 0, 0) else (0, 0, 0)⟩

/-- The feature vector of `imgA`. -/
def featA : List ℚ := 1 :: List.replicate 511 0

/-- The feature vector of `imgB`. -/
def featB : List ℚ := (127 / 128 : ℚ) :: (1 / 128 : ℚ) :: List.replicate 510 0

/-- The signature of `featA`: bit 0 of byte 0 set. -/
def sigA : List ℕ := 1 :: List.replicate 63 0

/-- The all-zero signature shared by every vector with entries in
`[0, 1)`. -/
def sigZero : List ℕ := List.replicate 64 0

/-- An `ImgDB` with empty tables and a 1-pixel size floor, to exercise
the ingestion logic on small images. -/
def db0 : ImgDB := ⟨1, 1, []⟩

/-- Eight bytes of randomness for the collision suffix. -/
def rb : List ℕ := [0, 0, 0, 0, 0, 0, 0, 0]

/-- The record committed by ingesting `imgA` as `"a"` into `db0`. -/
def fileA : ImageFile := ⟨"a", "png", featA⟩

/-- The store after ingesting `imgA` as `"a"` into `db0`. -/
def dbA : ImgDB := ⟨1, 1, [⟨sigA, [fileA]⟩]⟩

end Imgdb

namespace Imgdb

/-! ## Lemmas about the similarity metric -/

/-- Equality of `Except` results is decidable, so concrete runs can be
checked by evaluation. -/
instance : DecidableEq (Except AddErr ImageFile) := fun a b =>
  match a, b with
  | Except.ok x, Except.ok y => decidable_of_iff (x = y) (by simp)
  | Except.ok _, Except.error _ => isFalse (by simp)
  | Except.error _, Except.ok _ => isFalse (by simp)
  | Except.error x, Except.error y => decidable_of_iff (x = y) (by simp)

theorem epsilon_pos : 0 < epsilon := by norm_num [epsilon]

theorem chiFold_eq (l : List (ℚ × ℚ)) (c : ℚ) :
    l.foldl (fun accum p => accum + chiTerm p.1 p.2) c
      = c + (l.map fun p => chiTerm p.1 p.2).sum := by
  induction l generalizing c with
  | nil => simp
  | cons a l ih => simp [ih, add_assoc]

theorem zip_map_chiTerm_sum (a : List ℚ) : ∀ b : List ℚ, a.length = b.length →
    ((a.zip b).map fun p => chiTerm p.1 p.2).sum
      = ∑ i ∈ Finset.range a.length, chiTerm (a.getD i 0) (b.getD i 0) := by
  induction a with
  | nil => intro b h; simp
  | cons x xs ih =>
    intro b h
    cases b with
    | nil => simp at h
    | cons y ys =>
      have h' : xs.length = ys.length := by simpa using h
      simp only [List.zip_cons_cons, List.map_cons, List.sum_cons, List.length_cons,
        Finset.sum_range_succ', List.getD_cons_succ, List.getD_cons_zero, ih ys h']
      ring

theorem chiTerm_comm (x y : ℚ) : chiTerm x y = chiTerm y x := by
  unfold chiTerm
  have h1 : (x - y) * (x - y) = (y - x) * (y - x) := by ring
  have h2 : x + y + epsilon = y + x + epsilon := by ring
  rw [h1, h2]

theorem chiTerm_self (x : ℚ) : chiTerm x x = 0 := by
  simp [chiTerm]

theorem chiTerm_nonneg (x y : ℚ) (hx : 0 ≤ x) (hy : 0 ≤ y) : 0 ≤ chiTerm x y := by
  unfold chiTerm
  apply div_nonneg (mul_self_nonneg _)
  have := epsilon_pos
  linarith

theorem ChiDist_eq_sum (a b : List ℚ) (h : a.length = b.length) :
    ChiDist a b = ChiResult.val
      ((1 / 2) * ∑ i ∈ Finset.range a.length,
        (a.getD i 0 - b.getD i 0) ^ 2 / (a.getD i 0 + b.getD i 0 + epsilon)) := by
  have hne : ¬a.length ≠ b.length := by simp [h]
  unfold ChiDist
  rw [if_neg hne, chiFold_eq, zip_map_chiTerm_sum a b h, zero_add]
  congr 1
  rw [Finset.sum_div, Finset.mul_sum]
  apply Finset.sum_congr rfl
  intro i _
  unfold chiTerm
  rw [pow_two]
  ring

theorem ChiDist_of_ne (a b : List ℚ) (h : a.length ≠ b.length) :
    ChiDist a b = ChiResult.inf := by
  simp [ChiDist, h]

/-- C5: for equal-length vectors `ChiDist` returns
`(1/2) * Σ_i (a_i - b_i)^2 / (a_i + b_i + ε)` with `ε = 1e-10`; for
vectors of different lengths it returns positive infinity. -/
theorem ChiDist_spec (a b : List ℚ) :
    (a.length = b.length →
      ChiDist a b = ChiResult.val
        ((1 / 2) * ∑ i ∈ Finset.range a.length,
          (a.getD i 0 - b.getD i 0) ^ 2 / (a.getD i 0 + b.getD i 0 + epsilon))) ∧
    (a.length ≠ b.length → ChiDist a b = ChiResult.inf) :=
  ⟨ChiDist_eq_sum a b, ChiDist_of_ne a b⟩

/-- C5 witness: the formula at `[1] [2]`, infinity at `[1] []`. -/
theorem ChiDist_spec_witness :
    ChiDist [(1 : ℚ)] [2] = ChiResult.val
        ((1 / 2) * ∑ i ∈ Finset.range 1,
          (([(1 : ℚ)].getD i 0 - [(2 : ℚ)].getD i 0) ^ 2
            / ([(1 : ℚ)].getD i 0 + [(2 : ℚ)].getD i 0 + epsilon))) ∧
    ChiDist [(1 : ℚ)] [] = ChiResult.inf :=
  ⟨(ChiDist_spec [1] [2]).1 rfl, (ChiDist_spec [1] []).2 (by decide)⟩

/-- C9: the metric is symmetric on equal-length vectors, zero on
identical vectors, and non-negative on vectors with non-negative
entries. -/
theorem ChiDist_metric (a b : List ℚ) :
    (a.length = b.length → ChiDist a b = ChiDist b a) ∧
    ChiDist a a = ChiResult.val 0 ∧
    ((∀ x ∈ a, 0 ≤ x) → (∀ x ∈ b, 0 ≤ x) →
      ∀ q, ChiDist a b = ChiResult.val q → 0 ≤ q) := by
  refine ⟨?_, ?_, ?_⟩
  · intro h
    rw [ChiDist_eq_sum a b h, ChiDist_eq_sum b a h.symm, h]
    have hs : ∀ i ∈ Finset.range b.length,
        (a.getD i 0 - b.getD i 0) ^ 2 / (a.getD i 0 + b.getD i 0 + epsilon)
          = (b.getD i 0 - a.getD i 0) ^ 2 / (b.getD i 0 + a.getD i 0 + epsilon) := by
      intro i _
      have h1 : (a.getD i 0 - b.getD i 0) ^ 2 = (b.getD i 0 - a.getD i 0) ^ 2 := by ring
      have h2 : a.getD i 0 + b.getD i 0 + epsilon
          = b.getD i 0 + a.getD i 0 + epsilon := by ring
      rw [h1, h2]
    rw [Finset.sum_congr rfl hs]
  · rw [ChiDist_eq_sum a a rfl]
    have hz : ∑ i ∈ Finset.range a.length,
        (a.getD i 0 - a.getD i 0) ^ 2 / (a.getD i 0 + a.getD i 0 + epsilon) = 0 :=
      Finset.sum_eq_zero fun i _ => by rw [sub_self]; simp
    rw [hz, mul_zero]
  · intro ha hb q hq
    by_cases h : a.length = b.length
    · rw [ChiDist_eq_sum a b h] at hq
      obtain rfl : ((1 : ℚ) / 2) * ∑ i ∈ Finset.range a.length,
          (a.getD i 0 - b.getD i 0) ^ 2 / (a.getD i 0 + b.getD i 0 + epsilon) = q :=
        by injection hq
      apply mul_nonneg (by norm_num)
      apply Finset.sum_nonneg
      intro i hi
      apply div_nonneg (sq_nonneg _)
      have hia : i < a.length := Finset.mem_range.1 hi
      have hib : i < b.length := h ▸ hia
      have hxa : 0 ≤ a.getD i 0 := by
        rw [List.getD_eq_getElem a 0 hia]
        exact ha _ (List.getElem_mem hia)
      have hxb : 0 ≤ b.getD i 0 := by
        rw [List.getD_eq_getElem b 0 hib]
        exact hb _ (List.getElem_mem hib)
      have := epsilon_pos
      linarith
    · rw [ChiDist_of_ne a b h] at hq
      exact absurd hq (by simp)

/-- C9 witness: symmetry at `[1,2] [3,4]`, identity at `[1,2]`, and
non-negativity read off the run `ChiDist [0] [0] = val 0`. -/
theorem ChiDist_metric_witness :
    ChiDist [(1 : ℚ), 2] [3, 4] = ChiDist [(3 : ℚ), 4] [1, 2] ∧
    ChiDist [(1 : ℚ), 2] [1, 2] = ChiResult.val 0 ∧
    0 ≤ (0 : ℚ) :=
  ⟨(ChiDist_metric [1, 2] [3, 4]).1 rfl,
   (ChiDist_metric [1, 2] [1, 2]).2.1,
   (ChiDist_metric [0] [0]).2.2 (by norm_num) (by norm_num) 0
     (ChiDist_metric [0] [0]).2.1⟩

end Imgdb

namespace Imgdb

/-! ## Lemmas about the bucket signature -/

theorem bitFold_chunk (a0 a1 a2 a3 a4 a5 a6 a7 : ℚ) (l : List ℚ) (b : List ℕ) (t : ℕ) :
    (List.enumFrom (8 * t) (a0 :: a1 :: a2 :: a3 :: a4 :: a5 :: a6 :: a7 :: l)).foldl
        bitStep (b, 0)
      = (List.enumFrom (8 * t + 8) l).foldl bitStep
          (b.set t (byteVal a0 a1 a2 a3 a4 a5 a6 a7), 0) := by
  have e0 : 8 * t % 8 = 0 := by omega
  have e1 : (8 * t + 1) % 8 = 1 := by omega
  have e2 : (8 * t + 1 + 1) % 8 = 2 := by omega
  have e3 : (8 * t + 1 + 1 + 1) % 8 = 3 := by omega
  have e4 : (8 * t + 1 + 1 + 1 + 1) % 8 = 4 := by omega
  have e5 : (8 * t + 1 + 1 + 1 + 1 + 1) % 8 = 5 := by omega
  have e6 : (8 * t + 1 + 1 + 1 + 1 + 1 + 1) % 8 = 6 := by omega
  have e7 : (8 * t + 1 + 1 + 1 + 1 + 1 + 1 + 1) % 8 = 7 := by omega
  have d7 : (8 * t + 1 + 1 + 1 + 1 + 1 + 1 + 1) / 8 = t := by omega
  have e8 : 8 * t + 1 + 1 + 1 + 1 + 1 + 1 + 1 + 1 = 8 * t + 8 := by omega
  simp only [List.enumFrom_cons, List.foldl_cons, bitStep, e0, e1, e2, e3, e4, e5, e6, e7,
    d7, e8, byteVal]
  norm_num

end Imgdb

namespace Imgdb

theorem bitFold_small : ∀ (l : List ℚ) (s : ℕ) (b : List ℕ) (acc : ℕ),
    (∀ k, k < l.length → (s + k) % 8 ≠ 7) →
    ((List.enumFrom s l).foldl bitStep (b, acc)).1 = b := by
  intro l
  induction l with
  | nil => intro s b acc _; simp
  | cons x xs ih =>
    intro s b acc h
    have h0 : s % 8 ≠ 7 := by
      have := h 0 (by simp)
      simpa using this
    rw [List.enumFrom_cons, List.foldl_cons]
    have hstep : bitStep (b, acc) (s, x) = (b, orBit x (s % 8) acc) := by
      simp [bitStep, h0]
    rw [hstep]
    apply ih (s + 1) b _
    intro k hk
    have := h (k + 1) (by simpa using Nat.succ_lt_succ hk)
    have e : s + 1 + k = s + (k + 1) := by omega
    rw [e]
    exact this

theorem bitFold_eq_writeBytes (m : ℕ) : ∀ l : List ℚ, l.length ≤ 8 * m →
    ∀ (b : List ℕ) (t : ℕ),
    ((List.enumFrom (8 * t) l).foldl bitStep (b, 0)).1 = writeBytes b t l := by
  induction m with
  | zero =>
    intro l hl b t
    have : l = [] := List.length_eq_zero.1 (by omega)
    subst this
    simp [writeBytes]
  | succ m ih =>
    intro l hl b t
    match l with
    | a0 :: a1 :: a2 :: a3 :: a4 :: a5 :: a6 :: a7 :: rest =>
      rw [bitFold_chunk]
      have e : 8 * t + 8 = 8 * (t + 1) := by ring
      rw [e]
      have hr : rest.length ≤ 8 * m := by
        simp only [List.length_cons] at hl
        omega
      rw [ih rest hr]
      rfl
    | [] => simp [writeBytes]
    | [a0] =>
      rw [bitFold_small _ _ _ _ (by intro k hk; simp at hk; omega)]
      rfl
    | [a0, a1] =>
      rw [bitFold_small _ _ _ _ (by intro k hk; simp at hk; omega)]
      rfl
    | [a0, a1, a2] =>
      rw [bitFold_small _ _ _ _ (by intro k hk; simp at hk; omega)]
      rfl
    | [a0, a1, a2, a3] =>
      rw [bitFold_small _ _ _ _ (by intro k hk; simp at hk; omega)]
      rfl
    | [a0, a1, a2, a3, a4] =>
      rw [bitFold_small _ _ _ _ (by intro k hk; simp at hk; omega)]
      rfl
    | [a0, a1, a2, a3, a4, a5] =>
      rw [bitFold_small _ _ _ _ (by intro k hk; simp at hk; omega)]
      rfl
    | [a0, a1, a2, a3, a4, a5, a6] =>
      rw [bitFold_small _ _ _ _ (by intro k hk; simp at hk; omega)]
      rfl

theorem bitApproximation_eq_writeBytes (arr : List ℚ) :
    bitApproximation arr
      = writeBytes (List.replicate (arr.length / 8 + arr.length % 8) 0) 0 arr := by
  have h : arr.enum = List.enumFrom (8 * 0) arr := by
    norm_num [List.enum]
  unfold bitApproximation
  rw [h]
  exact bitFold_eq_writeBytes arr.length arr (by omega) _ 0

end Imgdb

namespace Imgdb

theorem getD_cons8 (a0 a1 a2 a3 a4 a5 a6 a7 : ℚ) (rest : List ℚ) (n : ℕ) :
    (a0 :: a1 :: a2 :: a3 :: a4 :: a5 :: a6 :: a7 :: rest).getD (n + 8) 0
      = rest.getD n 0 := by
  have e : n + 8 = n + 1 + 1 + 1 + 1 + 1 + 1 + 1 + 1 := by ring
  rw [e]
  simp [List.getD_cons_succ]

theorem chunkByteAt_cons (a0 a1 a2 a3 a4 a5 a6 a7 : ℚ) (rest : List ℚ) (i : ℕ) :
    chunkByteAt (a0 :: a1 :: a2 :: a3 :: a4 :: a5 :: a6 :: a7 :: rest) (i + 1)
      = chunkByteAt rest i := by
  unfold chunkByteAt
  rw [show 8 * (i + 1) = 8 * i + 8 from by ring]
  rw [show 8 * i + 8 + 1 = 8 * i + 1 + 8 from by ring,
    show 8 * i + 8 + 2 = 8 * i + 2 + 8 from by ring,
    show 8 * i + 8 + 3 = 8 * i + 3 + 8 from by ring,
    show 8 * i + 8 + 4 = 8 * i + 4 + 8 from by ring,
    show 8 * i + 8 + 5 = 8 * i + 5 + 8 from by ring,
    show 8 * i + 8 + 6 = 8 * i + 6 + 8 from by ring,
    show 8 * i + 8 + 7 = 8 * i + 7 + 8 from by ring,
    getD_cons8, getD_cons8, getD_cons8, getD_cons8, getD_cons8, getD_cons8,
    getD_cons8, getD_cons8]

theorem chunkByteAt_zero (a0 a1 a2 a3 a4 a5 a6 a7 : ℚ) (rest : List ℚ) :
    chunkByteAt (a0 :: a1 :: a2 :: a3 :: a4 :: a5 :: a6 :: a7 :: rest) 0
      = byteVal a0 a1 a2 a3 a4 a5 a6 a7 := by
  simp [chunkByteAt]

theorem writeBytes_spec (m : ℕ) : ∀ l : List ℚ, l.length ≤ 8 * m →
    ∀ (b : List ℕ) (t : ℕ),
    (writeBytes b t l).length = b.length ∧
    ∀ j, (writeBytes b t l)[j]? =
      if t ≤ j ∧ j < t + l.length / 8 then
        (if j < b.length then some (chunkByteAt l (j - t)) else none)
      else b[j]? := by
  induction m with
  | zero =>
    intro l hl b t
    have : l = [] := List.length_eq_zero.1 (by omega)
    subst this
    refine ⟨rfl, fun j => ?_⟩
    rw [show writeBytes b t ([] : List ℚ) = b from rfl,
      if_neg (by simp only [List.length_nil]; omega)]
  | succ m ih =>
    intro l hl b t
    match l with
    | a0 :: a1 :: a2 :: a3 :: a4 :: a5 :: a6 :: a7 :: rest =>
      have hr : rest.length ≤ 8 * m := by
        simp only [List.length_cons] at hl
        omega
      have hdiv : (a0 :: a1 :: a2 :: a3 :: a4 :: a5 :: a6 :: a7 :: rest).length / 8
          = rest.length / 8 + 1 := by
        simp only [List.length_cons]
        omega
      obtain ⟨ihl, ihg⟩ := ih rest hr (b.set t (byteVal a0 a1 a2 a3 a4 a5 a6 a7)) (t + 1)
      rw [show writeBytes b t (a0 :: a1 :: a2 :: a3 :: a4 :: a5 :: a6 :: a7 :: rest)
          = writeBytes (b.set t (byteVal a0 a1 a2 a3 a4 a5 a6 a7)) (t + 1) rest from rfl]
      refine ⟨by rw [ihl, List.length_set], fun j => ?_⟩
      rw [ihg j, hdiv, List.length_set]
      by_cases hj1 : t + 1 ≤ j ∧ j < t + 1 + rest.length / 8
      · rw [if_pos hj1, if_pos (show t ≤ j ∧ j < t + (rest.length / 8 + 1) from by omega)]
        have hjt : j - t = (j - (t + 1)) + 1 := by omega
        rw [hjt, chunkByteAt_cons]
      · rw [if_neg hj1]
        by_cases hj2 : t ≤ j ∧ j < t + (rest.length / 8 + 1)
        · have hjt : j = t := by omega
          subst hjt
          rw [if_pos hj2, List.getElem?_set, if_pos rfl, Nat.sub_self, chunkByteAt_zero]
        · rw [if_neg hj2, List.getElem?_set, if_neg (show ¬(t = j) from by omega)]
    | [] =>
      exact ⟨rfl, fun j => by
        rw [show writeBytes b t ([] : List ℚ) = b from rfl,
          if_neg (by simp only [List.length_nil]; omega)]⟩
    | [a0] =>
      exact ⟨rfl, fun j => by
        rw [show writeBytes b t [a0] = b from rfl,
          if_neg (by simp only [List.length_cons, List.length_nil]; omega)]⟩
    | [a0, a1] =>
      exact ⟨rfl, fun j => by
        rw [show writeBytes b t [a0, a1] = b from rfl,
          if_neg (by simp only [List.length_cons, List.length_nil]; omega)]⟩
    | [a0, a1, a2] =>
      exact ⟨rfl, fun j => by
        rw [show writeBytes b t [a0, a1, a2] = b from rfl,
          if_neg (by simp only [List.length_cons, List.length_nil]; omega)]⟩
    | [a0, a1, a2, a3] =>
      exact ⟨rfl, fun j => by
        rw [show writeBytes b t [a0, a1, a2, a3] = b from rfl,
          if_neg (by simp only [List.length_cons, List.length_nil]; omega)]⟩
    | [a0, a1, a2, a3, a4] =>
      exact ⟨rfl, fun j => by
        rw [show writeBytes b t [a0, a1, a2, a3, a4] = b from rfl,
          if_neg (by simp only [List.length_cons, List.length_nil]; omega)]⟩
    | [a0, a1, a2, a3, a4, a5] =>
      exact ⟨rfl, fun j => by
        rw [show writeBytes b t [a0, a1, a2, a3, a4, a5] = b from rfl,
          if_neg (by simp only [List.length_cons, List.length_nil]; omega)]⟩
    | [a0, a1, a2, a3, a4, a5, a6] =>
      exact ⟨rfl, fun j => by
        rw [show writeBytes b t [a0, a1, a2, a3, a4, a5, a6] = b from rfl,
          if_neg (by simp only [List.length_cons, List.length_nil]; omega)]⟩

end Imgdb

namespace Imgdb

theorem goUint_pos (q : ℚ) (h : 0 ≤ q) : 0 < goUint q ↔ 1 ≤ q := by
  unfold goUint
  have hnum : (0 : ℤ) ≤ q.num := Rat.num_nonneg.2 h
  have hden : (0 : ℚ) < (q.den : ℚ) := by exact_mod_cast q.pos
  constructor
  · intro hp
    have hle : q.den ≤ q.num.toNat := by
      by_contra hlt
      push_neg at hlt
      rw [Nat.div_eq_of_lt hlt] at hp
      exact lt_irrefl 0 hp
    have hz : (q.den : ℤ) ≤ q.num := (Int.le_toNat hnum).1 hle
    rw [← Rat.num_div_den q, one_le_div hden]
    exact_mod_cast hz
  · intro h1
    have hq : (q.den : ℚ) ≤ (q.num : ℚ) := by
      rw [← one_le_div hden, Rat.num_div_den q]
      exact h1
    have hz : (q.den : ℤ) ≤ q.num := by exact_mod_cast hq
    exact Nat.div_pos ((Int.le_toNat hnum).2 hz) q.pos

theorem goUint_eq_zero (q : ℚ) (h0 : 0 ≤ q) (h1 : q < 1) : goUint q = 0 := by
  have h := goUint_pos q h0
  by_contra hne
  have hp : 0 < goUint q := Nat.pos_of_ne_zero hne
  exact absurd (h.1 hp) (not_le.2 h1)

theorem ite_tf (c : Prop) [Decidable c] : (if c then true else false) = decide c := by
  by_cases h : c <;> simp [h]

theorem orBit_eq_or (q : ℚ) (k acc : ℕ) :
    orBit q k acc = acc ||| (if 0 < goUint q then 2 ^ k else 0) := by
  unfold orBit
  rw [Nat.one_shiftLeft]
  split <;> simp

theorem testBit_byteVal (a0 a1 a2 a3 a4 a5 a6 a7 : ℚ) (k : ℕ) (hk : k < 8) :
    Nat.testBit (byteVal a0 a1 a2 a3 a4 a5 a6 a7) k
      = decide (0 < goUint ([a0, a1, a2, a3, a4, a5, a6, a7].getD k 0)) := by
  simp only [byteVal, orBit_eq_or, Nat.testBit_or,
    apply_ite (fun n : ℕ => n.testBit k), Nat.testBit_two_pow, Nat.zero_testBit]
  interval_cases k <;> simp [ite_tf]

end Imgdb

namespace Imgdb

theorem getD_list8 (l : List ℚ) (j k : ℕ) (hk : k < 8) :
    [l.getD (8 * j) 0, l.getD (8 * j + 1) 0, l.getD (8 * j + 2) 0, l.getD (8 * j + 3) 0,
      l.getD (8 * j + 4) 0, l.getD (8 * j + 5) 0, l.getD (8 * j + 6) 0,
      l.getD (8 * j + 7) 0].getD k 0 = l.getD (8 * j + k) 0 := by
  interval_cases k <;> simp

/-- C3 (amended): `bitApproximation` marks position `i` as present
exactly when `uint(f) > 0`, i.e. when the value is at least `1` (not
when it exceeds `1/len`); bits are packed 8 per group, each group one
raw output byte (low bit first); only complete groups are written, any
trailing bytes stay `0`, and the output has `n/8 + n%8` bytes. -/
theorem bitApproximation_bits (arr : List ℚ) (hnn : ∀ x ∈ arr, 0 ≤ x) :
    (bitApproximation arr).length = arr.length / 8 + arr.length % 8 ∧
    (∀ i, i < 8 * (arr.length / 8) →
      Nat.testBit ((bitApproximation arr).getD (i / 8) 0) (i % 8)
        = decide (1 ≤ arr.getD i 0)) ∧
    ∀ j, arr.length / 8 ≤ j → (bitApproximation arr).getD j 0 = 0 := by
  obtain ⟨hlen, hget⟩ := writeBytes_spec arr.length arr (by omega)
    (List.replicate (arr.length / 8 + arr.length % 8) 0) 0
  rw [bitApproximation_eq_writeBytes]
  refine ⟨by rw [hlen, List.length_replicate], ?_, ?_⟩
  · intro i hi
    have hk8 : i % 8 < 8 := Nat.mod_lt _ (by norm_num)
    have hj : i / 8 < arr.length / 8 := by omega
    rw [List.getD_eq_getElem?_getD, hget (i / 8),
      if_pos (show 0 ≤ i / 8 ∧ i / 8 < 0 + arr.length / 8 from by omega),
      if_pos (show i / 8 < (List.replicate (arr.length / 8 + arr.length % 8) (0 : ℕ)).length
        from by rw [List.length_replicate]; omega),
      Option.getD_some, Nat.sub_zero]
    unfold chunkByteAt
    rw [testBit_byteVal _ _ _ _ _ _ _ _ (i % 8) hk8, decide_eq_decide,
      getD_list8 arr (i / 8) (i % 8) hk8, Nat.div_add_mod i 8]
    have hilen : i < arr.length := by omega
    have hnni : 0 ≤ arr.getD i 0 := by
      rw [List.getD_eq_getElem arr 0 hilen]
      exact hnn _ (List.getElem_mem hilen)
    exact goUint_pos _ hnni
  · intro j hjge
    rw [List.getD_eq_getElem?_getD, hget j, if_neg (by omega), List.getElem?_replicate]
    split <;> rfl

/-- C3 counterexample: for the vector `[1/2, 0, 0, 0, 0, 0, 0, 0]` the
value `1/2` exceeds the claimed threshold `1/len = 1/8`, yet the
signature leaves bit 0 clear (`uint(0.5) = 0`): the claimed bit rule is
false at this input. -/
theorem bitApproximation_bit_rule_counterexample :
    ¬(Nat.testBit ((bitApproximation [(1 : ℚ)/2, 0, 0, 0, 0, 0, 0, 0]).getD 0 0) 0 = true
        ↔ (1 : ℚ)/2 > 1 / (([(1 : ℚ)/2, 0, 0, 0, 0, 0, 0, 0].length : ℚ))) := by
  have hbit : (bitApproximation [(1 : ℚ)/2, 0, 0, 0, 0, 0, 0, 0]).getD 0 0 = 0 := by
    with_unfolding_all rfl
  intro h
  rw [hbit] at h
  have hgt : (1 : ℚ)/2 > 1 / (([(1 : ℚ)/2, 0, 0, 0, 0, 0, 0, 0].length : ℚ)) := by
    norm_num
  have := h.2 hgt
  rw [Nat.zero_testBit] at this
  exact Bool.false_ne_true this

/-- C3 witness: the amended bit rule evaluated on the 9-entry vector
`[2, 0, 1/2, 1, 0, 0, 0, 0, 3]`: 2 bytes of output, bit 3 of byte 0
reflects `1 ≤ 1`, and the trailing byte (incomplete group) is `0`. -/
theorem bitApproximation_bits_witness :
    (bitApproximation [(2 : ℚ), 0, 1/2, 1, 0, 0, 0, 0, 3]).length
        = [(2 : ℚ), 0, 1/2, 1, 0, 0, 0, 0, 3].length / 8
          + [(2 : ℚ), 0, 1/2, 1, 0, 0, 0, 0, 3].length % 8 ∧
    Nat.testBit ((bitApproximation [(2 : ℚ), 0, 1/2, 1, 0, 0, 0, 0, 3]).getD (3 / 8) 0) (3 % 8)
        = decide (1 ≤ [(2 : ℚ), 0, 1/2, 1, 0, 0, 0, 0, 3].getD 3 0) ∧
    (bitApproximation [(2 : ℚ), 0, 1/2, 1, 0, 0, 0, 0, 3]).getD 1 0 = 0 :=
  ⟨(bitApproximation_bits [(2 : ℚ), 0, 1/2, 1, 0, 0, 0, 0, 3] (by norm_num)).1,
   (bitApproximation_bits [(2 : ℚ), 0, 1/2, 1, 0, 0, 0, 0, 3] (by norm_num)).2.1 3
     (by norm_num),
   (bitApproximation_bits [(2 : ℚ), 0, 1/2, 1, 0, 0, 0, 0, 3] (by norm_num)).2.2 1
     (by norm_num)⟩

/-- C10: every vector whose entries all lie in `[0, 1)` — every
normalized histogram except a single-cell one — yields the all-zero
signature of `n/8 + n%8` bytes, so all such vectors of one length share
one bucket key. -/
theorem bitApproximation_all_zero (arr : List ℚ) (h : ∀ x ∈ arr, 0 ≤ x ∧ x < 1) :
    bitApproximation arr = List.replicate (arr.length / 8 + arr.length % 8) 0 ∧
    ∀ arr2 : List ℚ, arr2.length = arr.length → (∀ x ∈ arr2, 0 ≤ x ∧ x < 1) →
      bitApproximation arr2 = bitApproximation arr := by
  have main : ∀ l : List ℚ, (∀ x ∈ l, 0 ≤ x ∧ x < 1) →
      bitApproximation l = List.replicate (l.length / 8 + l.length % 8) 0 := by
    intro l hl
    have hx : ∀ n, goUint (l.getD n 0) = 0 := by
      intro n
      by_cases hn : n < l.length
      · rw [List.getD_eq_getElem l 0 hn]
        obtain ⟨h0, h1⟩ := hl _ (List.getElem_mem hn)
        exact goUint_eq_zero _ h0 h1
      · rw [List.getD_eq_default l 0 (by omega)]
        exact goUint_eq_zero 0 le_rfl (by norm_num)
    obtain ⟨hlen, hget⟩ := writeBytes_spec l.length l (by omega)
      (List.replicate (l.length / 8 + l.length % 8) 0) 0
    rw [bitApproximation_eq_writeBytes]
    apply List.ext_getElem?
    intro n
    rw [hget n]
    by_cases hn : 0 ≤ n ∧ n < 0 + l.length / 8
    · rw [if_pos hn, List.getElem?_replicate,
        if_pos (by rw [List.length_replicate] at *; omega),
        if_pos (by omega)]
      have hz : chunkByteAt l (n - 0) = 0 := by
        unfold chunkByteAt byteVal
        simp only [orBit, hx]
        norm_num
      rw [hz]
    · rw [if_neg hn]
  refine ⟨main arr h, fun arr2 hlen2 h2 => ?_⟩
  rw [main arr h, main arr2 h2, hlen2]

/-- C10 witness: the vectors `[1/2, 1/4]` and `[1/3, 0]` (all entries in
`[0,1)`) both map to the 2-byte all-zero signature. -/
theorem bitApproximation_all_zero_witness :
    bitApproximation [(1 : ℚ)/2, 1/4]
        = List.replicate ([(1 : ℚ)/2, 1/4].length / 8 + [(1 : ℚ)/2, 1/4].length % 8) 0 ∧
    bitApproximation [(1 : ℚ)/3, 0] = bitApproximation [(1 : ℚ)/2, 1/4] :=
  ⟨(bitApproximation_all_zero [(1 : ℚ)/2, 1/4] (by norm_num)).1,
   (bitApproximation_all_zero [(1 : ℚ)/2, 1/4] (by norm_num)).2 [(1 : ℚ)/3, 0]
     (by norm_num) (by norm_num)⟩

end Imgdb

namespace Imgdb

/-! ## Lemmas about the feature extractor -/

theorem pixList_length (img : Img) : (pixList img).length = img.w * img.h := by
  unfold pixList
  rw [List.length_flatMap]
  have : (List.map (List.length ∘ fun x => (List.range img.h).map fun y => img.pix x y)
      (List.range img.w)) = List.map (fun _ => img.h) (List.range img.w) := by
    apply List.map_congr_left
    intro x _
    simp
  rw [this]
  rw [List.map_const']
  simp [mul_comm]

theorem pixList_mem (img : Img) (p : ℕ × ℕ × ℕ) (hp : p ∈ pixList img) :
    ∃ x y, x < img.w ∧ y < img.h ∧ p = img.pix x y := by
  unfold pixList at hp
  rw [List.mem_flatMap] at hp
  obtain ⟨x, hx, hp⟩ := hp
  rw [List.mem_map] at hp
  obtain ⟨y, hy, hp⟩ := hp
  exact ⟨x, y, List.mem_range.1 hx, List.mem_range.1 hy, hp.symm⟩

theorem binIdx_lt (p : ℕ × ℕ × ℕ) (h1 : p.1 ≤ 65535) (h2 : p.2.1 ≤ 65535)
    (h3 : p.2.2 ≤ 65535) : (RGBHistogram.new 8 8 8).binIdx p < 512 := by
  show p.1 / chanDiv 8 + p.2.1 / chanDiv 8 * 8 + p.2.2 / chanDiv 8 * 8 * 8 < 512
  have hc : chanDiv 8 = 8192 := by norm_num [chanDiv, limit]
  rw [hc]
  omega

theorem countFold (hi : RGBHistogram) : ∀ (l : List (ℕ × ℕ × ℕ)) (init : List ℚ),
    (∀ p ∈ l, hi.binIdx p < init.length) →
    ((l.foldl (bumpBin hi) init).length = init.length ∧
     ∀ j, j < init.length →
       (l.foldl (bumpBin hi) init).getD j 0
         = init.getD j 0 + (l.countP (fun p => hi.binIdx p == j) : ℚ)) := by
  intro l
  induction l with
  | nil => intro init _; exact ⟨rfl, fun j _ => by simp⟩
  | cons p l ih =>
    intro init hb
    have hp : hi.binIdx p < init.length := hb p (List.mem_cons_self p l)
    have hlen : (bumpBin hi init p).length = init.length := List.length_set _ _ _
    have hb' : ∀ q ∈ l, hi.binIdx q < (bumpBin hi init p).length := by
      intro q hq
      rw [hlen]
      exact hb q (List.mem_cons_of_mem p hq)
    obtain ⟨ihl, ihg⟩ := ih (bumpBin hi init p) hb'
    rw [List.foldl_cons]
    refine ⟨by rw [ihl, hlen], fun j hj => ?_⟩
    rw [ihg j (by rw [hlen]; exact hj), List.countP_cons]
    have hset : (bumpBin hi init p).getD j 0
        = init.getD j 0 + (if hi.binIdx p == j then (1 : ℚ) else 0) := by
      unfold bumpBin
      rw [List.getD_eq_getElem?_getD, List.getElem?_set]
      by_cases he : hi.binIdx p = j
      · subst he
        rw [if_pos rfl, if_pos (by omega), Option.getD_some, if_pos (by simp)]
      · rw [if_neg he, if_neg (by simp [he]), add_zero, List.getD_eq_getElem?_getD]
    rw [hset]
    push_cast
    ring

theorem sum_eq_sum_getD (l : List ℚ) : l.sum = ∑ i ∈ Finset.range l.length, l.getD i 0 := by
  induction l with
  | nil => simp
  | cons x xs ih =>
    rw [List.sum_cons, List.length_cons, Finset.sum_range_succ']
    simp only [List.getD_cons_succ, List.getD_cons_zero]
    rw [← ih]
    ring

theorem sum_countP (L : List (ℕ × ℕ × ℕ)) (f : ℕ × ℕ × ℕ → ℕ) (n : ℕ)
    (h : ∀ p ∈ L, f p < n) :
    ∑ j ∈ Finset.range n, L.countP (fun p => f p == j) = L.length := by
  induction L with
  | nil => simp
  | cons p L ih =>
    have hp : f p < n := h p (List.mem_cons_self p L)
    simp only [List.countP_cons, List.length_cons]
    rw [Finset.sum_add_distrib, ih (fun q hq => h q (List.mem_cons_of_mem p hq))]
    have : ∑ j ∈ Finset.range n, (if (f p == j) = true then 1 else 0) = 1 := by
      have : ∀ j, (if (f p == j) = true then (1 : ℕ) else 0) = if j = f p then 1 else 0 := by
        intro j
        by_cases he : f p = j
        · rw [if_pos (by simp [he]), if_pos he.symm]
        · rw [if_neg (by simp [he]), if_neg (fun hc => he hc.symm)]
      rw [Finset.sum_congr rfl (fun j _ => this j)]
      rw [Finset.sum_ite_eq' (Finset.range n) (f p) (fun _ => (1 : ℕ))]
      rw [if_pos (Finset.mem_range.2 hp)]
    rw [this]

theorem map_div_sum (l : List ℚ) (c : ℚ) : (l.map fun v => v / c).sum = l.sum / c := by
  induction l with
  | nil => simp
  | cons x xs ih => rw [List.map_cons, List.sum_cons, List.sum_cons, ih, add_div]

end Imgdb

namespace Imgdb

/-- C6: for a supported format and an image with at least one pixel and
16-bit channel values, `GenerateFeature` returns the 8×8×8 = 512-bin
histogram in which bin `i` holds the fraction of pixels whose joint bin
index `r/8192 + (g/8192)*8 + (b/8192)*64` equals `i`; all entries are
non-negative and they sum to exactly 1. -/
theorem GenerateFeature_spec (img : Img) (format : String)
    (hfmt : format = "png" ∨ format = "jpeg")
    (hpos : 0 < img.w * img.h)
    (hchan : ∀ x y, (img.pix x y).1 ≤ 65535 ∧ (img.pix x y).2.1 ≤ 65535
      ∧ (img.pix x y).2.2 ≤ 65535) :
    GenerateFeature img format = some ((RGBHistogram.new 8 8 8).Describe img).feature ∧
    ((RGBHistogram.new 8 8 8).Describe img).feature.length = 8 * 8 * 8 ∧
    (∀ i, i < 512 → ((RGBHistogram.new 8 8 8).Describe img).feature.getD i 0
      = ((pixList img).countP (fun p => (RGBHistogram.new 8 8 8).binIdx p == i) : ℚ)
        / ((img.w * img.h : ℕ) : ℚ)) ∧
    (∀ x ∈ ((RGBHistogram.new 8 8 8).Describe img).feature, 0 ≤ x) ∧
    ((RGBHistogram.new 8 8 8).Describe img).feature.sum = 1 := by
  have hflen : (RGBHistogram.new 8 8 8).feature.length = 512 := by
    show (List.replicate (8 * 8 * 8) (0 : ℚ)).length = 512
    rw [List.length_replicate]
  have hb : ∀ p ∈ pixList img, (RGBHistogram.new 8 8 8).binIdx p
      < (RGBHistogram.new 8 8 8).feature.length := by
    intro p hp
    obtain ⟨x, y, _, _, rfl⟩ := pixList_mem img p hp
    obtain ⟨h1, h2, h3⟩ := hchan x y
    rw [hflen]
    exact binIdx_lt _ h1 h2 h3
  obtain ⟨hclen, hcget⟩ := countFold (RGBHistogram.new 8 8 8) (pixList img)
    (RGBHistogram.new 8 8 8).feature hb
  have hinit : ∀ j, (RGBHistogram.new 8 8 8).feature.getD j 0 = 0 := by
    intro j
    show (List.replicate (8 * 8 * 8) (0 : ℚ)).getD j 0 = 0
    rw [List.getD_eq_getElem?_getD, List.getElem?_replicate]
    split <;> rfl
  have hdesc : ((RGBHistogram.new 8 8 8).Describe img).feature
      = ((pixList img).foldl (bumpBin (RGBHistogram.new 8 8 8))
          (RGBHistogram.new 8 8 8).feature).map
        (fun v => v / ((img.w * img.h : ℕ) : ℚ)) := rfl
  have hcget' : ∀ j, j < 512 →
      ((pixList img).foldl (bumpBin (RGBHistogram.new 8 8 8))
        (RGBHistogram.new 8 8 8).feature).getD j 0
      = ((pixList img).countP (fun p => (RGBHistogram.new 8 8 8).binIdx p == j) : ℚ) := by
    intro j hj
    rw [hcget j (by omega), hinit j, zero_add]
  have hclen' : ((pixList img).foldl (bumpBin (RGBHistogram.new 8 8 8))
      (RGBHistogram.new 8 8 8).feature).length = 512 := by
    rw [hclen, hflen]
  refine ⟨by unfold GenerateFeature; rw [if_pos hfmt], ?_, ?_, ?_, ?_⟩
  · rw [hdesc, List.length_map, hclen']
  · intro i hi
    rw [hdesc, List.getD_eq_getElem?_getD, List.getElem?_map,
      List.getElem?_eq_getElem (by rw [hclen']; exact hi), Option.map_some',
      Option.getD_some, ← List.getD_eq_getElem _ 0 (by rw [hclen']; exact hi),
      hcget' i hi]
  · intro x hx
    rw [hdesc, List.mem_map] at hx
    obtain ⟨cv, hcv, rfl⟩ := hx
    rw [List.mem_iff_getElem] at hcv
    obtain ⟨k, hk, rfl⟩ := hcv
    rw [← List.getD_eq_getElem _ 0 hk, hcget' k (by rw [← hclen']; exact hk)]
    apply div_nonneg (Nat.cast_nonneg _) (Nat.cast_nonneg _)
  · rw [hdesc, map_div_sum, sum_eq_sum_getD, hclen']
    have hterm : ∀ i ∈ Finset.range 512,
        ((pixList img).foldl (bumpBin (RGBHistogram.new 8 8 8))
          (RGBHistogram.new 8 8 8).feature).getD i 0
        = ((pixList img).countP
            (fun p => (RGBHistogram.new 8 8 8).binIdx p == i) : ℚ) := by
      intro i hi
      exact hcget' i (Finset.mem_range.1 hi)
    rw [Finset.sum_congr rfl hterm]
    rw [← Nat.cast_sum]
    rw [sum_countP (pixList img) (fun p => (RGBHistogram.new 8 8 8).binIdx p) 512
      (fun p hp => by rw [← hflen]; exact hb p hp)]
    rw [pixList_length]
    exact div_self (by exact_mod_cast Nat.pos_iff_ne_zero.1 hpos)

end Imgdb

namespace Imgdb

/-- C6 witness: the histogram facts evaluated on the 1×1 solid image
`imgA` (bin 0 and total mass shown). -/
theorem GenerateFeature_spec_witness :
    GenerateFeature imgA "png" = some ((RGBHistogram.new 8 8 8).Describe imgA).feature ∧
    ((RGBHistogram.new 8 8 8).Describe imgA).feature.length = 8 * 8 * 8 ∧
    ((RGBHistogram.new 8 8 8).Describe imgA).feature.getD 0 0
      = ((pixList imgA).countP (fun p => (RGBHistogram.new 8 8 8).binIdx p == 0) : ℚ)
        / ((imgA.w * imgA.h : ℕ) : ℚ) ∧
    ((RGBHistogram.new 8 8 8).Describe imgA).feature.sum = 1 :=
  ⟨(GenerateFeature_spec imgA "png" (Or.inl rfl) (by norm_num [imgA])
      (fun x y => ⟨by norm_num [imgA], by norm_num [imgA], by norm_num [imgA]⟩)).1,
   (GenerateFeature_spec imgA "png" (Or.inl rfl) (by norm_num [imgA])
      (fun x y => ⟨by norm_num [imgA], by norm_num [imgA], by norm_num [imgA]⟩)).2.1,
   (GenerateFeature_spec imgA "png" (Or.inl rfl) (by norm_num [imgA])
      (fun x y => ⟨by norm_num [imgA], by norm_num [imgA], by norm_num [imgA]⟩)).2.2.1 0
     (by norm_num),
   (GenerateFeature_spec imgA "png" (Or.inl rfl) (by norm_num [imgA])
      (fun x y => ⟨by norm_num [imgA], by norm_num [imgA], by norm_num [imgA]⟩)).2.2.2.2⟩

end Imgdb

namespace Imgdb

/-! ## Lemmas about the ingestion coordinator -/

theorem AddImg_fail (db : ImgDB) (name : String) (rand : List ℕ) :
    AddImg db name DecodeResult.fail rand = (Except.error AddErr.decodeFail, db) := rfl

theorem AddImg_small (db : ImgDB) (name : String) (img : Img) (format : String)
    (rand : List ℕ) (h : img.w < db.minW ∨ img.h < db.minH) :
    AddImg db name (DecodeResult.ok img format) rand
      = (Except.error (AddErr.tooSmall img.w img.h), db) := by
  simp only [AddImg]
  rw [if_pos h]

theorem AddImg_nofeat (db : ImgDB) (name : String) (img : Img) (format : String)
    (rand : List ℕ) (h : ¬(img.w < db.minW ∨ img.h < db.minH))
    (hf : GenerateFeature img format = none) :
    AddImg db name (DecodeResult.ok img format) rand
      = (Except.error (AddErr.featureFail name), db) := by
  simp only [AddImg]
  rw [if_neg h, hf]

theorem AddImg_dupRun (db : ImgDB) (name : String) (img : Img) (format : String)
    (rand : List ℕ) (features : List ℚ) (f : ImageFile)
    (hsz : ¬(img.w < db.minW ∨ img.h < db.minH))
    (hf : GenerateFeature img format = some features)
    (hfind : (getCluster db.clusters (bitApproximation features)).1.files.find?
        (fun g => chiLt (ChiDist features g.index) chiThresh) = some f) :
    AddImg db name (DecodeResult.ok img format) rand
      = (Except.error (AddErr.dupFile (f.name ++ "." ++ f.format) (name ++ "." ++ format)),
         ⟨db.minW, db.minH, (getCluster db.clusters (bitApproximation features)).2⟩) := by
  simp only [AddImg]
  rw [if_neg hsz, hf]
  simp only [hfind]

theorem AddImg_okRun (db : ImgDB) (name : String) (img : Img) (format : String)
    (rand : List ℕ) (features : List ℚ)
    (hsz : ¬(img.w < db.minW ∨ img.h < db.minH))
    (hf : GenerateFeature img format = some features)
    (hfind : (getCluster db.clusters (bitApproximation features)).1.files.find?
        (fun g => chiLt (ChiDist features g.index) chiThresh) = none) :
    AddImg db name (DecodeResult.ok img format) rand
      = (Except.ok
          (⟨if fileExists (getCluster db.clusters (bitApproximation features)).2 name
              then name ++ hexEncode (rand.take 8) else name, format, features⟩ : ImageFile),
         ⟨db.minW, db.minH,
          appendFile (getCluster db.clusters (bitApproximation features)).2
            (bitApproximation features)
            ⟨if fileExists (getCluster db.clusters (bitApproximation features)).2 name
                then name ++ hexEncode (rand.take 8) else name, format, features⟩⟩) := by
  simp only [AddImg]
  rw [if_neg hsz, hf]
  simp only [hfind]

theorem getCluster_of_some (cs : List Cluster) (sig : List ℕ) (c : Cluster)
    (h : findCluster cs sig = some c) : getCluster cs sig = (c, cs) := by
  unfold getCluster
  rw [h]

theorem getCluster_of_none (cs : List Cluster) (sig : List ℕ)
    (h : findCluster cs sig = none) :
    getCluster cs sig = (⟨sig, []⟩, cs ++ [⟨sig, []⟩]) := by
  unfold getCluster
  rw [h]

theorem findCluster_append_new (cs : List Cluster) (sig : List ℕ) (fs : List ImageFile)
    (h : findCluster cs sig = none) :
    findCluster (cs ++ [⟨sig, fs⟩]) sig = some ⟨sig, fs⟩ := by
  unfold findCluster at *
  rw [List.find?_append, h]
  simp

theorem appendFile_fresh (cs : List Cluster) (sig : List ℕ) (f : ImageFile)
    (h : findCluster cs sig = none) :
    appendFile (cs ++ [⟨sig, []⟩]) sig f = cs ++ [⟨sig, [f]⟩] := by
  unfold findCluster at h
  rw [List.find?_eq_none] at h
  unfold appendFile
  rw [List.map_append]
  congr 1
  · conv_rhs => rw [← List.map_id cs]
    apply List.map_congr_left
    intro c hc
    have := h c hc
    rw [if_neg (by simpa using this)]
    rfl
  · simp

theorem fileExists_append_empty (cs : List Cluster) (sig : List ℕ) (n : String) :
    fileExists (cs ++ [⟨sig, []⟩]) n = fileExists cs n := by
  unfold fileExists
  rw [List.any_append]
  simp

theorem fileExists_append_file (cs : List Cluster) (sig : List ℕ) (f : ImageFile)
    (fs : List ImageFile) (hf : f ∈ fs) :
    fileExists (cs ++ [⟨sig, fs⟩]) f.name = true := by
  unfold fileExists
  rw [List.any_append]
  apply Bool.or_eq_true_iff.2
  right
  simp only [List.any_cons, List.any_nil, Bool.or_false]
  rw [List.any_eq_true]
  exact ⟨f, hf, by simp⟩

end Imgdb

namespace Imgdb

/-! ## Evaluation facts about the concrete test data -/

set_option maxRecDepth 6000 in
theorem featA_eval : GenerateFeature imgA "png" = some featA := by
  with_unfolding_all rfl

set_option maxRecDepth 6000 in
theorem featB_eval : GenerateFeature imgB "png" = some featB := by
  with_unfolding_all rfl

set_option maxRecDepth 6000 in
theorem sigA_eval : bitApproximation featA = sigA := by
  with_unfolding_all rfl

set_option maxRecDepth 6000 in
theorem sigB_eval : bitApproximation featB = sigZero := by
  with_unfolding_all rfl

theorem sigA_ne_sigZero : sigA ≠ sigZero := by decide

end Imgdb

namespace Imgdb

theorem zip_replicate_zero (n : ℕ) :
    (List.replicate n (0 : ℚ)).zip (List.replicate n (0 : ℚ))
      = List.replicate n ((0 : ℚ), (0 : ℚ)) := by
  induction n with
  | zero => simp
  | succ n ih => simp [List.replicate_succ, List.zip_cons_cons, ih]

theorem ChiDist_sparse2 (a0 a1 b0 b1 : ℚ) (n : ℕ) :
    ChiDist (a0 :: a1 :: List.replicate n 0) (b0 :: b1 :: List.replicate n 0)
      = ChiResult.val ((chiTerm a0 b0 + chiTerm a1 b1) / 2) := by
  unfold ChiDist
  rw [if_neg (by simp)]
  congr 1
  rw [List.zip_cons_cons, List.zip_cons_cons, zip_replicate_zero, chiFold_eq]
  simp only [List.map_cons, List.map_replicate, List.sum_cons, chiTerm_self,
    List.sum_replicate, smul_zero, add_zero]
  ring_nf

theorem featA_two_heads : featA = 1 :: 0 :: List.replicate 510 0 := by
  unfold featA
  rw [show (511 : ℕ) = 510 + 1 from rfl, List.replicate_succ]

theorem chiAA_eval : chiLt (ChiDist featA featA) chiThresh = true := by
  rw [featA_two_heads, ChiDist_sparse2]
  unfold chiLt
  rw [decide_eq_true_eq]
  norm_num [chiTerm, epsilon, chiThresh]

theorem chiBA_eval : chiLt (ChiDist featB featA) chiThresh = true := by
  rw [featA_two_heads]
  unfold featB
  rw [ChiDist_sparse2]
  unfold chiLt
  rw [decide_eq_true_eq]
  norm_num [chiTerm, epsilon, chiThresh]

end Imgdb

namespace Imgdb

set_option maxRecDepth 6000 in
theorem firstCall_eval :
    AddImg db0 "a" (DecodeResult.ok imgA "png") rb = (Except.ok fileA, dbA) := by
  with_unfolding_all rfl

set_option maxRecDepth 6000 in
theorem secondCall_eval :
    AddImg dbA "b" (DecodeResult.ok imgB "png") rb
      = (Except.ok ⟨"b", "png", featB⟩,
         ⟨1, 1, [⟨sigA, [fileA]⟩, ⟨sigZero, [⟨"b", "png", featB⟩]⟩]⟩) := by
  with_unfolding_all rfl

end Imgdb

namespace Imgdb

theorem dupCall_eval :
    AddImg dbA "b" (DecodeResult.ok imgA "png") rb
      = (Except.error (AddErr.dupFile ("a" ++ "." ++ "png") ("b" ++ "." ++ "png")), dbA) := by
  have hfind : findCluster dbA.clusters (bitApproximation featA) = some ⟨sigA, [fileA]⟩ := by
    rw [sigA_eval]
    with_unfolding_all rfl
  have hfound : (getCluster dbA.clusters (bitApproximation featA)).1.files.find?
      (fun g => chiLt (ChiDist featA g.index) chiThresh) = some fileA := by
    rw [getCluster_of_some _ _ _ hfind]
    exact List.find?_cons_of_pos _ chiAA_eval
  have h := AddImg_dupRun dbA "b" imgA "png" rb featA fileA (by decide) featA_eval hfound
  rw [getCluster_of_some _ _ _ hfind] at h
  exact h

end Imgdb

namespace Imgdb

/-- C7: every validation failure — decode failure, a dimension below
the configured minimum (default 500 in a fresh database), or an
unsupported format with no feature vector — returns an error carrying
no `ImageFile` and leaves the record store completely unchanged. -/
theorem AddImg_validation (db : ImgDB) (name : String) (rand : List ℕ) :
    (AddImg db name DecodeResult.fail rand = (Except.error AddErr.decodeFail, db)) ∧
    (∀ img format, (img.w < db.minW ∨ img.h < db.minH) →
      AddImg db name (DecodeResult.ok img format) rand
        = (Except.error (AddErr.tooSmall img.w img.h), db)) ∧
    (∀ img format, ¬(img.w < db.minW ∨ img.h < db.minH) →
      GenerateFeature img format = none →
      AddImg db name (DecodeResult.ok img format) rand
        = (Except.error (AddErr.featureFail name), db)) ∧
    newImgDB.minW = 500 ∧ newImgDB.minH = 500 :=
  ⟨AddImg_fail db name rand,
   fun img format h => AddImg_small db name img format rand h,
   fun img format h hf => AddImg_nofeat db name img format rand h hf,
   rfl, rfl⟩

/-- C7 witness: the three failures on concrete inputs: undecodable
bytes, the 1×1 image against the default 500-pixel floor, and an
unsupported `gif` format. -/
theorem AddImg_validation_witness :
    AddImg db0 "x" DecodeResult.fail rb = (Except.error AddErr.decodeFail, db0) ∧
    AddImg newImgDB "x" (DecodeResult.ok imgA "png") rb
      = (Except.error (AddErr.tooSmall imgA.w imgA.h), newImgDB) ∧
    AddImg db0 "x" (DecodeResult.ok imgA "gif") rb
      = (Except.error (AddErr.featureFail "x"), db0) :=
  ⟨(AddImg_validation db0 "x" rb).1,
   (AddImg_validation newImgDB "x" rb).2.1 imgA "png" (by decide),
   (AddImg_validation db0 "x" rb).2.2.1 imgA "gif" (by decide) (by decide)⟩

/-- C4: when the duplicate scan hits a record of the bucket whose
distance to the new vector is below `chiThresh`, `AddImg` aborts with a
`DupFileError` naming that existing record (and the candidate
filename), and the store is left exactly as it was: no record is
appended and no bucket from this call is retained (the bucket
pre-existed, so this call created nothing). -/
theorem AddImg_dup_abort (db : ImgDB) (name : String) (img : Img) (format : String)
    (rand : List ℕ) (features : List ℚ) (c : Cluster) (f : ImageFile)
    (hsz : ¬(img.w < db.minW ∨ img.h < db.minH))
    (hf : GenerateFeature img format = some features)
    (hc : findCluster db.clusters (bitApproximation features) = some c)
    (hfind : c.files.find? (fun g => chiLt (ChiDist features g.index) chiThresh) = some f) :
    AddImg db name (DecodeResult.ok img format) rand
      = (Except.error (AddErr.dupFile (f.name ++ "." ++ f.format) (name ++ "." ++ format)),
         db) ∧
    f ∈ c.files ∧ chiLt (ChiDist features f.index) chiThresh = true := by
  have hg := getCluster_of_some db.clusters (bitApproximation features) c hc
  refine ⟨?_, List.mem_of_find?_eq_some hfind, ?_⟩
  · have h := AddImg_dupRun db name img format rand features f hsz hf
      (by rw [hg]; exact hfind)
    rw [h, hg]
  · have h2 := List.find?_some hfind
    exact h2

/-- C4 witness: re-ingesting the solid image under a new name against a
store already holding its record aborts with the duplicate error and
leaves the store untouched. -/
theorem AddImg_dup_abort_witness :
    AddImg dbA "b" (DecodeResult.ok imgA "png") rb
      = (Except.error
          (AddErr.dupFile (fileA.name ++ "." ++ fileA.format) ("b" ++ "." ++ "png")), dbA) ∧
    fileA ∈ (⟨sigA, [fileA]⟩ : Cluster).files ∧
    chiLt (ChiDist featA fileA.index) chiThresh = true :=
  AddImg_dup_abort dbA "b" imgA "png" rb featA ⟨sigA, [fileA]⟩ fileA (by decide)
    featA_eval (by rw [sigA_eval]; with_unfolding_all rfl)
    (List.find?_cons_of_pos _ chiAA_eval)

end Imgdb

namespace Imgdb

theorem fileExists_getCluster (cs : List Cluster) (sig : List ℕ) (n : String) :
    fileExists (getCluster cs sig).2 n = fileExists cs n := by
  unfold getCluster
  cases h : findCluster cs sig with
  | some c => rfl
  | none => exact fileExists_append_empty cs sig n

theorem getCluster_mem (cs : List Cluster) (sig : List ℕ) :
    ∃ c ∈ (getCluster cs sig).2, c.name = sig := by
  unfold getCluster
  cases h : findCluster cs sig with
  | some c =>
    refine ⟨c, List.mem_of_find?_eq_some h, ?_⟩
    have := List.find?_some h
    exact of_decide_eq_true this
  | none =>
    exact ⟨⟨sig, []⟩, by simp, rfl⟩

theorem fileExists_appendFile (cs : List Cluster) (sig : List ℕ) (f : ImageFile)
    (h : ∃ c ∈ cs, c.name = sig) : fileExists (appendFile cs sig f) f.name = true := by
  obtain ⟨c, hc, hname⟩ := h
  unfold appendFile fileExists
  rw [List.any_map, List.any_eq_true]
  refine ⟨c, hc, ?_⟩
  show ((if c.name = sig then (⟨c.name, c.files ++ [f]⟩ : Cluster) else c).files.any
    fun g => g.name = f.name) = true
  rw [if_pos hname, List.any_append]
  simp

theorem hexEncode_length_ne_zero (bs : List ℕ) (h : bs ≠ []) :
    (hexEncode bs).length ≠ 0 := by
  match bs with
  | [] => exact absurd rfl h
  | b :: rest =>
    show (String.mk ((b :: rest).flatMap fun k => [hexDigit (k / 16), hexDigit (k % 16)])).length ≠ 0
    rw [show (String.mk ((b :: rest).flatMap fun k => [hexDigit (k / 16), hexDigit (k % 16)])).length
        = ((b :: rest).flatMap fun k => [hexDigit (k / 16), hexDigit (k % 16)]).length from rfl]
    simp

theorem append_hexEncode_ne (n : String) (bs : List ℕ) (h : bs ≠ []) :
    n ++ hexEncode bs ≠ n := by
  intro he
  have hl := congrArg String.length he
  rw [String.length_append] at hl
  exact hexEncode_length_ne_zero bs h (by omega)

/-- C8: if the candidate name already exists anywhere in the store, the
record is persisted under the name extended by the hex encoding of 8
fresh bytes (64 bits) from the crypto random reader; hence ingesting
two non-duplicate images under one declared name lets both succeed
with distinct persisted names.  The second call's bucket is assumed to
hold no record within the duplicate threshold (the images are not
near-duplicates). -/
theorem AddImg_name_collision (db : ImgDB) (name : String) (imgX imgY : Img)
    (fmtX fmtY : String) (rX rY : List ℕ) (vX vY : List ℚ)
    (hszX : ¬(imgX.w < db.minW ∨ imgX.h < db.minH))
    (hfX : GenerateFeature imgX fmtX = some vX)
    (hfresh : fileExists db.clusters name = false)
    (hnodupX : (getCluster db.clusters (bitApproximation vX)).1.files.find?
        (fun g => chiLt (ChiDist vX g.index) chiThresh) = none)
    (hszY : ¬(imgY.w < db.minW ∨ imgY.h < db.minH))
    (hfY : GenerateFeature imgY fmtY = some vY)
    (hrY : rY.take 8 ≠ [])
    (hnodupY : (getCluster
        (appendFile (getCluster db.clusters (bitApproximation vX)).2
          (bitApproximation vX) ⟨name, fmtX, vX⟩)
        (bitApproximation vY)).1.files.find?
        (fun g => chiLt (ChiDist vY g.index) chiThresh) = none) :
    (AddImg db name (DecodeResult.ok imgX fmtX) rX).1 = Except.ok ⟨name, fmtX, vX⟩ ∧
    (AddImg (AddImg db name (DecodeResult.ok imgX fmtX) rX).2 name
        (DecodeResult.ok imgY fmtY) rY).1
      = Except.ok ⟨name ++ hexEncode (rY.take 8), fmtY, vY⟩ ∧
    name ++ hexEncode (rY.take 8) ≠ name := by
  have hex1 : fileExists (getCluster db.clusters (bitApproximation vX)).2 name = false := by
    rw [fileExists_getCluster]
    exact hfresh
  have h1 := AddImg_okRun db name imgX fmtX rX vX hszX hfX hnodupX
  rw [hex1] at h1
  simp only [if_false, Bool.false_eq_true] at h1
  have hstate : (AddImg db name (DecodeResult.ok imgX fmtX) rX).2
      = ⟨db.minW, db.minH,
         appendFile (getCluster db.clusters (bitApproximation vX)).2
           (bitApproximation vX) ⟨name, fmtX, vX⟩⟩ := by
    rw [h1]
  have hex2 : fileExists
      (getCluster (appendFile (getCluster db.clusters (bitApproximation vX)).2
          (bitApproximation vX) ⟨name, fmtX, vX⟩) (bitApproximation vY)).2 name = true := by
    rw [fileExists_getCluster]
    exact fileExists_appendFile _ _ ⟨name, fmtX, vX⟩
      (getCluster_mem db.clusters (bitApproximation vX))
  refine ⟨by rw [h1], ?_, append_hexEncode_ne name (rY.take 8) hrY⟩
  rw [hstate]
  have h2 := AddImg_okRun
    (⟨db.minW, db.minH,
      appendFile (getCluster db.clusters (bitApproximation vX)).2
        (bitApproximation vX) ⟨name, fmtX, vX⟩⟩ : ImgDB)
    name imgY fmtY rY vY hszY hfY hnodupY
  rw [h2]
  show Except.ok (⟨if fileExists _ name = true then name ++ hexEncode (rY.take 8) else name,
    fmtY, vY⟩ : ImageFile) = _
  rw [if_pos hex2]

end Imgdb

namespace Imgdb

/-- C8 witness: ingesting `imgA` and then the non-duplicate `imgB` both
declared `"x"` into an empty store: both succeed, the second persisted
under `"x"` plus the 16-hex-character suffix of the 8 random bytes. -/
theorem AddImg_name_collision_witness :
    (AddImg db0 "x" (DecodeResult.ok imgA "png") rb).1 = Except.ok ⟨"x", "png", featA⟩ ∧
    (AddImg (AddImg db0 "x" (DecodeResult.ok imgA "png") rb).2 "x"
        (DecodeResult.ok imgB "png") rb).1
      = Except.ok ⟨"x" ++ hexEncode (rb.take 8), "png", featB⟩ ∧
    "x" ++ hexEncode (rb.take 8) ≠ "x" :=
  AddImg_name_collision db0 "x" imgA imgB "png" "png" rb rb featA featB
    (by decide) featA_eval rfl
    (by rw [sigA_eval]; with_unfolding_all rfl)
    (by decide) featB_eval (by decide)
    (by rw [sigA_eval, sigB_eval]; with_unfolding_all rfl)

end Imgdb

namespace Imgdb

set_option maxRecDepth 6000 in
/-- C1 counterexample: `imgA` is committed, `imgB`'s vector is within
the duplicate threshold of `imgA`'s stored vector, yet the second call
does not return a `DupFileError` — it commits a new record, because the
two vectors map to different bucket signatures and the duplicate scan
only examines one bucket. -/
theorem AddImg_dup_rejection_counterexample :
    (AddImg db0 "a" (DecodeResult.ok imgA "png") rb).1 = Except.ok fileA ∧
    chiLt (ChiDist featB fileA.index) chiThresh = true ∧
    (AddImg (AddImg db0 "a" (DecodeResult.ok imgA "png") rb).2 "b"
        (DecodeResult.ok imgB "png") rb).1 = Except.ok ⟨"b", "png", featB⟩ ∧
    fileExists (AddImg (AddImg db0 "a" (DecodeResult.ok imgA "png") rb).2 "b"
        (DecodeResult.ok imgB "png") rb).2.clusters "b" = true := by
  refine ⟨by rw [firstCall_eval], chiBA_eval, ?_, ?_⟩
  · rw [firstCall_eval]
    show (AddImg dbA "b" (DecodeResult.ok imgB "png") rb).1 = _
    rw [secondCall_eval]
  · rw [firstCall_eval]
    show fileExists (AddImg dbA "b" (DecodeResult.ok imgB "png") rb).2.clusters "b" = true
    rw [secondCall_eval]
    rfl

set_option maxHeartbeats 1000000 in
/-- C1 (amended): sequential duplicate rejection, amended with the
condition the code actually requires: if the second vector is within
the duplicate threshold of the first AND maps to the same bucket
signature, the second call returns a `DupFileError` referencing the
first call's committed record and leaves the store unchanged. -/
theorem AddImg_dup_rejection_amended (db : ImgDB) (nA nB : String) (iA iB : Img)
    (fmA fmB : String) (rA rB2 : List ℕ) (vA vB : List ℚ)
    (hszA : ¬(iA.w < db.minW ∨ iA.h < db.minH))
    (hfA : GenerateFeature iA fmA = some vA)
    (hfresh : findCluster db.clusters (bitApproximation vA) = none)
    (hszB : ¬(iB.w < db.minW ∨ iB.h < db.minH))
    (hfB : GenerateFeature iB fmB = some vB)
    (hdup : chiLt (ChiDist vB vA) chiThresh = true)
    (hsig : bitApproximation vB = bitApproximation vA) :
    ∃ nm db1,
      AddImg db nA (DecodeResult.ok iA fmA) rA = (Except.ok ⟨nm, fmA, vA⟩, db1) ∧
      AddImg db1 nB (DecodeResult.ok iB fmB) rB2
        = (Except.error (AddErr.dupFile (nm ++ "." ++ fmA) (nB ++ "." ++ fmB)), db1) := by
  have hgc := getCluster_of_none db.clusters (bitApproximation vA) hfresh
  have hnodupA : (getCluster db.clusters (bitApproximation vA)).1.files.find?
      (fun g => chiLt (ChiDist vA g.index) chiThresh) = none := by
    rw [hgc]
    rfl
  refine ⟨_, _, AddImg_okRun db nA iA fmA rA vA hszA hfA hnodupA, ?_⟩
  rw [hgc]
  rw [appendFile_fresh db.clusters (bitApproximation vA) _ hfresh]
  have hfindB : findCluster
      (db.clusters ++ [⟨bitApproximation vA,
        [⟨if fileExists (db.clusters ++ [⟨bitApproximation vA, []⟩]) nA = true
            then nA ++ hexEncode (rA.take 8) else nA, fmA, vA⟩]⟩])
      (bitApproximation vB)
      = some ⟨bitApproximation vA,
        [⟨if fileExists (db.clusters ++ [⟨bitApproximation vA, []⟩]) nA = true
            then nA ++ hexEncode (rA.take 8) else nA, fmA, vA⟩]⟩ := by
    rw [hsig]
    exact findCluster_append_new _ _ _ hfresh
  have hfound : (getCluster
      (db.clusters ++ [⟨bitApproximation vA,
        [⟨if fileExists (db.clusters ++ [⟨bitApproximation vA, []⟩]) nA = true
            then nA ++ hexEncode (rA.take 8) else nA, fmA, vA⟩]⟩])
      (bitApproximation vB)).1.files.find?
      (fun g => chiLt (ChiDist vB g.index) chiThresh)
      = some ⟨if fileExists (db.clusters ++ [⟨bitApproximation vA, []⟩]) nA = true
          then nA ++ hexEncode (rA.take 8) else nA, fmA, vA⟩ := by
    rw [getCluster_of_some _ _ _ hfindB]
    exact List.find?_cons_of_pos _ hdup
  have h2 := AddImg_dupRun
    (⟨db.minW, db.minH,
      db.clusters ++ [⟨bitApproximation vA,
        [⟨if fileExists (db.clusters ++ [⟨bitApproximation vA, []⟩]) nA = true
            then nA ++ hexEncode (rA.take 8) else nA, fmA, vA⟩]⟩]⟩ : ImgDB)
    nB iB fmB rB2 vB
    ⟨if fileExists (db.clusters ++ [⟨bitApproximation vA, []⟩]) nA = true
        then nA ++ hexEncode (rA.take 8) else nA, fmA, vA⟩
    hszB hfB hfound
  rw [h2, getCluster_of_some _ _ _ hfindB]

end Imgdb

namespace Imgdb

theorem chiAB_eval : chiLt (ChiDist featA featB) chiThresh = true := by
  rw [featA_two_heads]
  unfold featB
  rw [ChiDist_sparse2]
  unfold chiLt
  rw [decide_eq_true_eq]
  norm_num [chiTerm, epsilon, chiThresh]

theorem runSeq_all_dup (dbS : ImgDB) (v0 : List ℚ) (f0 : ImageFile) :
    ∀ rest : List (String × Img × String × List ℕ),
    (∀ c ∈ rest, ¬(c.2.1.w < dbS.minW ∨ c.2.1.h < dbS.minH) ∧
      ∃ v, GenerateFeature c.2.1 c.2.2.1 = some v ∧
        chiLt (ChiDist v f0.index) chiThresh = true ∧
        bitApproximation v = bitApproximation v0) →
    findCluster dbS.clusters (bitApproximation v0) = some ⟨bitApproximation v0, [f0]⟩ →
    runSeq dbS (rest.map fun c => (c.1, DecodeResult.ok c.2.1 c.2.2.1, c.2.2.2))
      = (rest.map (fun c => Except.error
          (AddErr.dupFile (f0.name ++ "." ++ f0.format) (c.1 ++ "." ++ c.2.2.1))), dbS) := by
  intro rest
  induction rest with
  | nil => intro _ _; rfl
  | cons c cs ih =>
    intro h hc
    obtain ⟨hszc, v, hv, hchi, hsigc⟩ := h c (List.mem_cons_self c cs)
    have hfound : (getCluster dbS.clusters (bitApproximation v)).1.files.find?
        (fun g => chiLt (ChiDist v g.index) chiThresh) = some f0 := by
      rw [hsigc, getCluster_of_some _ _ _ hc]
      exact List.find?_cons_of_pos _ hchi
    have hcall := AddImg_dupRun dbS c.1 c.2.1 c.2.2.1 c.2.2.2 v f0 hszc hv hfound
    rw [hsigc, getCluster_of_some _ _ _ hc] at hcall
    simp only [List.map_cons, runSeq]
    rw [hcall]
    rw [show (⟨dbS.minW, dbS.minH, dbS.clusters⟩ : ImgDB) = dbS from rfl]
    rw [ih (fun d hd => h d (List.mem_cons_of_mem c hd)) hc]

set_option maxHeartbeats 1000000 in
/-- C2 (amended): the mutex serializes the critical sections, so any
schedule of N concurrent calls is one of the serial orders run by
`runSeq`.  For every such order, if the callers' vectors are pairwise
within the duplicate threshold AND share one bucket signature (fresh in
the store), exactly the first call commits a record; every other call
observes the winner's record and returns a `DupFileError` referencing
it, leaving the store as the winner left it. -/
theorem runSeq_dup_amended (db : ImgDB) (c0 : String × Img × String × List ℕ)
    (rest : List (String × Img × String × List ℕ)) (v0 : List ℚ)
    (hsz0 : ¬(c0.2.1.w < db.minW ∨ c0.2.1.h < db.minH))
    (hf0 : GenerateFeature c0.2.1 c0.2.2.1 = some v0)
    (hfresh : findCluster db.clusters (bitApproximation v0) = none)
    (hrest : ∀ c ∈ rest, ¬(c.2.1.w < db.minW ∨ c.2.1.h < db.minH) ∧
      ∃ v, GenerateFeature c.2.1 c.2.2.1 = some v ∧
        chiLt (ChiDist v v0) chiThresh = true ∧
        bitApproximation v = bitApproximation v0) :
    ∃ f0 db1,
      AddImg db c0.1 (DecodeResult.ok c0.2.1 c0.2.2.1) c0.2.2.2 = (Except.ok f0, db1) ∧
      runSeq db ((c0 :: rest).map fun c => (c.1, DecodeResult.ok c.2.1 c.2.2.1, c.2.2.2))
        = (Except.ok f0 ::
            rest.map (fun c => Except.error
              (AddErr.dupFile (f0.name ++ "." ++ f0.format) (c.1 ++ "." ++ c.2.2.1))), db1) ∧
      (Except.ok f0 ::
        rest.map (fun c => Except.error
          (AddErr.dupFile (f0.name ++ "." ++ f0.format) (c.1 ++ "." ++ c.2.2.1)))).countP
        isOkResult = 1 := by
  have hgc := getCluster_of_none db.clusters (bitApproximation v0) hfresh
  have hnodup0 : (getCluster db.clusters (bitApproximation v0)).1.files.find?
      (fun g => chiLt (ChiDist v0 g.index) chiThresh) = none := by
    rw [hgc]
    rfl
  have h1 := AddImg_okRun db c0.1 c0.2.1 c0.2.2.1 c0.2.2.2 v0 hsz0 hf0 hnodup0
  refine ⟨_, _, h1, ?_, ?_⟩
  · simp only [List.map_cons, runSeq]
    rw [h1]
    have hfindB : findCluster
        (⟨db.minW, db.minH,
          appendFile (getCluster db.clusters (bitApproximation v0)).2
            (bitApproximation v0)
            ⟨if fileExists (getCluster db.clusters (bitApproximation v0)).2 c0.1 = true
                then c0.1 ++ hexEncode (c0.2.2.2.take 8) else c0.1, c0.2.2.1, v0⟩⟩
          : ImgDB).clusters (bitApproximation v0)
        = some ⟨bitApproximation v0,
            [⟨if fileExists (getCluster db.clusters (bitApproximation v0)).2 c0.1 = true
                then c0.1 ++ hexEncode (c0.2.2.2.take 8) else c0.1, c0.2.2.1, v0⟩]⟩ := by
      show findCluster (appendFile (getCluster db.clusters (bitApproximation v0)).2
          (bitApproximation v0) _) (bitApproximation v0) = _
      rw [hgc, appendFile_fresh db.clusters (bitApproximation v0) _ hfresh]
      exact findCluster_append_new _ _ _ hfresh
    have hseq := runSeq_all_dup
      (⟨db.minW, db.minH,
        appendFile (getCluster db.clusters (bitApproximation v0)).2
          (bitApproximation v0)
          ⟨if fileExists (getCluster db.clusters (bitApproximation v0)).2 c0.1 = true
              then c0.1 ++ hexEncode (c0.2.2.2.take 8) else c0.1, c0.2.2.1, v0⟩⟩ : ImgDB)
      v0
      (⟨if fileExists (getCluster db.clusters (bitApproximation v0)).2 c0.1 = true
          then c0.1 ++ hexEncode (c0.2.2.2.take 8) else c0.1, c0.2.2.1, v0⟩ : ImageFile)
      rest (fun d hd => ⟨(hrest d hd).1, (hrest d hd).2⟩) hfindB
    rw [hseq]
  · rw [List.countP_cons]
    have hz : (rest.map (fun c => Except.error
        (AddErr.dupFile
          ((⟨if fileExists (getCluster db.clusters (bitApproximation v0)).2 c0.1 = true
              then c0.1 ++ hexEncode (c0.2.2.2.take 8) else c0.1, c0.2.2.1, v0⟩
            : ImageFile).name ++ "." ++ c0.2.2.1) (c.1 ++ "." ++ c.2.2.1)))).countP
        isOkResult = 0 := by
      rw [List.countP_eq_zero]
      intro a ha
      rw [List.mem_map] at ha
      obtain ⟨d, _, rfl⟩ := ha
      simp [isOkResult]
    rw [hz]
    rfl

end Imgdb

namespace Imgdb

/-- C2 counterexample: two serialized "concurrent" ingestions whose
vectors are mutually within the duplicate threshold (both directions
shown) both commit — 2 records instead of exactly 1 — because their
vectors map to different bucket signatures. -/
theorem runSeq_dup_counterexample :
    chiLt (ChiDist featB featA) chiThresh = true ∧
    chiLt (ChiDist featA featB) chiThresh = true ∧
    (runSeq db0 [("a", DecodeResult.ok imgA "png", rb),
        ("b", DecodeResult.ok imgB "png", rb)]).1.countP isOkResult = 2 := by
  refine ⟨chiBA_eval, chiAB_eval, ?_⟩
  simp only [runSeq]
  rw [firstCall_eval]
  show List.countP isOkResult
    [Except.ok fileA, (AddImg dbA "b" (DecodeResult.ok imgB "png") rb).1] = 2
  rw [secondCall_eval]
  rfl

end Imgdb

namespace Imgdb

/-- C1 witness: ingesting the solid image twice (same vector, same
signature, distance 0 below threshold): the second call is rejected as
a duplicate of the first, and the store is unchanged by it. -/
theorem AddImg_dup_rejection_amended_witness :
    AddImg db0 "a" (DecodeResult.ok imgA "png") rb = (Except.ok fileA, dbA) ∧
    AddImg dbA "b" (DecodeResult.ok imgA "png") rb
      = (Except.error (AddErr.dupFile ("a" ++ "." ++ "png") ("b" ++ "." ++ "png")), dbA) := by
  obtain ⟨nm, db1, h1, h2⟩ := AddImg_dup_rejection_amended db0 "a" "b" imgA imgA
    "png" "png" rb rb featA featA (by decide) featA_eval
    (by rw [sigA_eval]; rfl) (by decide) featA_eval chiAA_eval rfl
  rw [firstCall_eval] at h1
  simp only [Prod.mk.injEq, Except.ok.injEq] at h1
  obtain ⟨hfa, hdb⟩ := h1
  subst hdb
  have hnm : "a" = nm := by
    have := congrArg ImageFile.name hfa
    simpa [fileA] using this
  subst hnm
  exact ⟨firstCall_eval, h2⟩

/-- C2 witness: the serialized pair (solid image twice): the first call
commits `fileA`, the second observes it and fails with the duplicate
error; exactly one commit. -/
theorem runSeq_dup_amended_witness :
    runSeq db0 [("a", DecodeResult.ok imgA "png", rb), ("b", DecodeResult.ok imgA "png", rb)]
      = ([Except.ok fileA,
          Except.error (AddErr.dupFile (fileA.name ++ "." ++ fileA.format)
            ("b" ++ "." ++ "png"))], dbA) ∧
    ([Except.ok fileA,
      Except.error (AddErr.dupFile (fileA.name ++ "." ++ fileA.format)
        ("b" ++ "." ++ "png"))] : List (Except AddErr ImageFile)).countP isOkResult = 1 := by
  obtain ⟨f0, db1, h1, h2, h3⟩ := runSeq_dup_amended db0 ("a", imgA, "png", rb)
    [("b", imgA, "png", rb)] featA (by decide) featA_eval (by rw [sigA_eval]; rfl)
    (by
      intro c hc
      rw [List.mem_singleton] at hc
      subst hc
      exact ⟨by decide, featA, featA_eval, chiAA_eval, rfl⟩)
  rw [firstCall_eval] at h1
  simp only [Prod.mk.injEq, Except.ok.injEq] at h1
  obtain ⟨hfa, hdb⟩ := h1
  subst hdb
  rw [← hfa] at h2 h3
  simp only [List.map_cons, List.map_nil] at h2 h3
  exact ⟨h2, h3⟩

end Imgdb
